import Mathlib

/-!
Verification of the metadata presentation pipeline of the
file-information tool (`src/main.rs`).

The Rust source is shallowly embedded below: each pure helper function
of the program (`ellipsize`, `friendly_label`, `friendly_value`,
`uri_has_handler`, `looks_like_uri`, the aggregation core of
`populate_grid`, and the CSV export performed by the copy button) is
translated into an executable Lean definition.  External collaborators
(the GLib date-time formatter, the URL parser, the content-type
resolvers and the application registry) are passed in as explicit
function parameters, mirroring the fact that the program only observes
them through their results.  Theorems relate these source-derived
definitions to independent specification-derived characterisations.
-/

/-- Ontology constant for the date/time datatype (`XSD_DATETYPE` in the source). -/
def XSD_DATETYPE : String := "http://www.w3.org/2001/XMLSchema#dateType"

/-- Ontology constant for the rdf:type predicate (`RDF_TYPE` in the source). -/
def RDF_TYPE : String := "http://www.w3.org/1999/02/22-rdf-syntax-ns#type"

/-- Ontology constant for the distinguished file-object type (`FILEDATAOBJECT`). -/
def FILEDATAOBJECT : String := "http://tracker.api.gnome.org/ontology/v3/nfo#FileDataObject"

/-- The shared row shape (`struct TableRow` in the source): four plain strings. -/
structure TableRow where
  display_predicate : String
  native_predicate : String
  display_value : String
  native_value : String
deriving DecidableEq

/-- Rebuilding a string from its character list is the identity. -/
theorem string_mk_toList (s : String) : String.mk s.toList = s := rfl

/-- The character list of a rebuilt string is the original list. -/
theorem string_toList_mk (l : List Char) : (String.mk l).toList = l := rfl

/- ## Truncator (`fn ellipsize`) -/

/-- The character loop of `ellipsize`: walks the characters, copying them
until `maxChars` have been taken; once the count has reached `maxChars`
and another character remains, it pushes a single ellipsis and stops.
Returns the final value of the `count` variable together with the
accumulated characters, exactly as the Rust loop leaves them. -/
def ellipsizeLoop (maxChars : Nat) : Nat → List Char → Nat × List Char
  | _count, [] => (_count, [])
  | count, c :: rest =>
    if maxChars ≤ count then (count, ['…'])
    else
      let r := ellipsizeLoop maxChars (count + 1) rest
      (r.1, c :: r.2)

/-- `fn ellipsize(s, max_chars)`: run the loop from count 0; afterwards,
if the final count is smaller than the character count of `s` the input
was truncated and the accumulated result is returned, otherwise the
input string is returned unchanged. -/
def ellipsize (s : String) (maxChars : Nat) : String :=
  if (ellipsizeLoop maxChars 0 s.toList).1 < s.toList.length
  then String.mk (ellipsizeLoop maxChars 0 s.toList).2
  else s

/-- Closed form of the `ellipsize` loop: starting from a count that is
still within budget, the loop either copies the whole list (when it
fits) or copies exactly the remaining budget and appends the ellipsis. -/
theorem ellipsizeLoop_eq (maxChars : Nat) :
    ∀ (l : List Char) (count : Nat), count ≤ maxChars →
      ellipsizeLoop maxChars count l =
        if count + l.length ≤ maxChars then (count + l.length, l)
        else (maxChars, l.take (maxChars - count) ++ ['…']) := by
  intro l
  induction l with
  | nil =>
    intro count h
    simp [ellipsizeLoop, h]
  | cons c rest ih =>
    intro count h
    by_cases hc : maxChars ≤ count
    · have hnot : ¬ (count + (c :: rest).length ≤ maxChars) := by
        simp only [List.length_cons]
        omega
      simp only [ellipsizeLoop]
      rw [if_pos hc, if_neg hnot]
      have hce : count = maxChars := Nat.le_antisymm h hc
      subst hce
      simp
    · have h1 : count + 1 ≤ maxChars := Nat.lt_of_not_le hc
      simp only [ellipsizeLoop]
      rw [if_neg hc, ih (count + 1) h1]
      by_cases hfit : count + 1 + rest.length ≤ maxChars
      · rw [if_pos hfit,
          if_pos (show count + (c :: rest).length ≤ maxChars by
            simp only [List.length_cons]; omega)]
        show ((count + 1 + rest.length, c :: rest) : Nat × List Char)
          = (count + (c :: rest).length, c :: rest)
        simp only [List.length_cons, Prod.mk.injEq]
        exact ⟨by omega, trivial⟩
      · rw [if_neg hfit,
          if_neg (show ¬ (count + (c :: rest).length ≤ maxChars) by
            simp only [List.length_cons]; omega)]
        have htake : (c :: rest).take (maxChars - count)
            = c :: rest.take (maxChars - (count + 1)) := by
          have hmc : maxChars - count = (maxChars - (count + 1)) + 1 := by omega
          rw [hmc, List.take_succ_cons]
        rw [htake]
        show ((maxChars, c :: (rest.take (maxChars - (count + 1)) ++ ['…'])) : Nat × List Char)
          = (maxChars, (c :: rest.take (maxChars - (count + 1))) ++ ['…'])
        simp

/-- C7: counting Unicode scalar values, if `s` fits within `n` characters
then `ellipsize s n` returns `s` unchanged; otherwise it returns exactly
the first `n` characters of `s` followed by a single ellipsis, hence a
string of exactly `n + 1` characters whose last character is the
ellipsis. -/
theorem ellipsize_correct (s : String) (n : Nat) :
    (s.toList.length ≤ n → ellipsize s n = s) ∧
    (n < s.toList.length →
      ellipsize s n = String.mk (s.toList.take n ++ ['…']) ∧
      (ellipsize s n).toList.length = n + 1 ∧
      (ellipsize s n).toList.getLast? = some '…') := by
  constructor
  · intro hfit
    unfold ellipsize
    rw [ellipsizeLoop_eq n s.toList 0 (Nat.zero_le n),
      if_pos (show 0 + s.toList.length ≤ n by omega)]
    rw [if_neg (show ¬ ((0 + s.toList.length, s.toList).1 < s.toList.length) by simp)]
  · intro hlong
    have hres : ellipsize s n = String.mk (s.toList.take n ++ ['…']) := by
      unfold ellipsize
      rw [ellipsizeLoop_eq n s.toList 0 (Nat.zero_le n),
        if_neg (show ¬ (0 + s.toList.length ≤ n) by omega)]
      rw [if_pos (show ((n, s.toList.take (n - 0) ++ ['…']).1 < s.toList.length) from hlong)]
      show String.mk (s.toList.take (n - 0) ++ ['…']) = String.mk (s.toList.take n ++ ['…'])
      rw [Nat.sub_zero]
    refine ⟨hres, ?_, ?_⟩
    · rw [hres, string_toList_mk, List.length_append, List.length_take]
      have hmin : min n s.toList.length = n := by omega
      rw [hmin]
      rfl
    · rw [hres, string_toList_mk]
      exact List.getLast?_concat _

/-- Witness for C7: a string within budget is returned unchanged, a
longer string is cut to the first three characters plus the ellipsis,
and the multi-byte example from the specification behaves the same. -/
theorem ellipsize_correct_witness :
    ellipsize "hello" 10 = "hello" ∧
    ellipsize "hello" 3 = String.mk ("hello".toList.take 3 ++ ['…']) ∧
    ellipsize (String.mk (List.replicate 82 'é')) 80
      = String.mk (List.replicate 80 'é' ++ ['…']) :=
  ⟨(ellipsize_correct "hello" 10).1 (by decide),
   ((ellipsize_correct "hello" 3).2 (by decide)).1,
   ((ellipsize_correct (String.mk (List.replicate 82 'é')) 80).2
      (by decide)).1.trans (by decide)⟩

/-- C8 counterexample: on the empty string, `ellipsize "" 0` returns the
empty string rather than the ellipsis, so the claim does not hold for
every string. -/
theorem ellipsize_zero_empty_counterexample :
    ellipsize "" 0 = "" ∧ ellipsize "" 0 ≠ "…" := by
  constructor
  · rfl
  · decide

/-- C8 amended: for every nonempty string `s`, `ellipsize s 0` returns
just the single ellipsis character. -/
theorem ellipsize_zero_nonempty (s : String) (h : s ≠ "") :
    ellipsize s 0 = "…" := by
  have hne : s.toList ≠ [] := by
    intro habs
    apply h
    have h2 : String.mk s.toList = String.mk [] := by rw [habs]
    rw [string_mk_toList] at h2
    rw [h2]
  have hpos : 0 < s.toList.length := List.length_pos.mpr hne
  have hloop := ellipsizeLoop_eq 0 s.toList 0 (Nat.le_refl 0)
  rw [if_neg (show ¬ (0 + s.toList.length ≤ 0) by omega)] at hloop
  unfold ellipsize
  rw [hloop,
    if_pos (show ((0, s.toList.take (0 - 0) ++ ['…']).1 < s.toList.length) from hpos)]
  show String.mk (s.toList.take (0 - 0) ++ ['…']) = "…"
  rw [Nat.sub_zero, List.take_zero]
  decide

/-- Witness for C8 amended: `ellipsize "hello" 0` is the ellipsis. -/
theorem ellipsize_zero_nonempty_witness : ellipsize "hello" 0 = "…" :=
  ellipsize_zero_nonempty "hello" (by decide)

/- ## Label formatter (`fn friendly_label`)

The Rust character predicates `char::is_uppercase` and
`char::to_uppercase` consult the full Unicode tables; they are taken as
parameters (`isUp`, `capF`) so every theorem below holds for any
classifier, and the ASCII instantiation used in the examples coincides
with Rust on the ASCII identifiers involved. -/

/-- A label separator character: `#` or `/`. -/
def isSep (c : Char) : Bool := decide (c = '#' ∨ c = '/')

/-- `uri.trim_end_matches(&['#', '/'])`: drop all trailing separators. -/
def trimEnd (l : List Char) : List Char :=
  (l.reverse.dropWhile isSep).reverse

/-- `trimmed.rsplit(&['#', '/']).next()`: the part after the last
separator, or the whole list when no separator occurs. -/
def afterLastSep (l : List Char) : List Char :=
  (l.reverse.takeWhile (fun c => !isSep c)).reverse

/-- The word-splitting loop of `friendly_label`: on an uppercase letter
with a nonempty current word, the current word is pushed and a new word
starts; at the end the leftover word is pushed if nonempty. -/
def splitWordsGo (isUp : Char → Bool) : List Char → List Char → List (List Char)
  | cur, [] => if cur.isEmpty then [] else [cur]
  | cur, c :: rest =>
    if isUp c && !cur.isEmpty then cur :: splitWordsGo isUp [c] rest
    else splitWordsGo isUp (cur ++ [c]) rest

/-- The word splitting of `friendly_label`, started with an empty word. -/
def splitWords (isUp : Char → Bool) (l : List Char) : List (List Char) :=
  splitWordsGo isUp [] l

/-- Capitalize the first character of a word (the Rust
`f.to_uppercase().collect::<String>() + cs.as_str()`); `capF` may map a
character to several, as Unicode uppercasing does. -/
def capWord (capF : Char → List Char) : List Char → List Char
  | [] => []
  | f :: rest => capF f ++ rest

/-- `.join(" ")`: join words with single spaces. -/
def joinSpace : List (List Char) → List Char
  | [] => []
  | [w] => w
  | w :: ws => w ++ ' ' :: joinSpace ws

/-- `fn friendly_label(uri)`: strip trailing separators, take the local
name after the last remaining separator, split it into words at
uppercase boundaries, capitalize each word and join with spaces. -/
def friendly_label (isUp : Char → Bool) (capF : Char → List Char) (uri : String) : String :=
  String.mk (joinSpace (((splitWords isUp (afterLastSep (trimEnd uri.toList)))).map (capWord capF)))

/-- The ASCII instantiation of `friendly_label` (agrees with the Rust
Unicode predicates on ASCII input). -/
def friendly_labelA (uri : String) : String :=
  friendly_label Char.isUpper (fun c => [c.toUpper]) uri

/-- Dropping a prefix never lengthens a list. -/
theorem dropWhile_length_le {α : Type} (p : α → Bool) (l : List α) :
    (l.dropWhile p).length ≤ l.length := by
  induction l with
  | nil => simp
  | cons a rest ih =>
    rw [List.dropWhile_cons]
    by_cases hp : p a
    · simp only [hp, if_pos]
      exact Nat.le_succ_of_le ih
    · simp [hp]

/-- Modelled from the specification wording: the local name is split
into words by taking, for each word, its first character and then the
longest run of non-uppercase characters; a boundary occurs immediately
before each uppercase letter that is not the first character of the
accumulated run. -/
def splitWordsSpec (isUp : Char → Bool) : List Char → List (List Char)
  | [] => []
  | c :: rest =>
    (c :: rest.takeWhile (fun d => !isUp d))
      :: splitWordsSpec isUp (rest.dropWhile (fun d => !isUp d))
termination_by l => l.length
decreasing_by
  simp only [List.length_cons]
  exact Nat.lt_succ_of_le (dropWhile_length_le _ _)

/-- The specification-worded label algorithm, for comparison with the
source-derived `friendly_label`. -/
def labelSpec (isUp : Char → Bool) (capF : Char → List Char) (uri : String) : String :=
  String.mk (joinSpace (((splitWordsSpec isUp (afterLastSep (trimEnd uri.toList)))).map (capWord capF)))

/-- Generalisation of the word-splitting equivalence: running the
accumulator loop with a nonempty current word first extends that word
with the longest non-uppercase run, then continues as the
specification-side splitter. -/
theorem splitWordsGo_eq (isUp : Char → Bool) :
    ∀ (l cur : List Char), cur ≠ [] →
      splitWordsGo isUp cur l =
        (cur ++ l.takeWhile (fun d => !isUp d))
          :: splitWordsSpec isUp (l.dropWhile (fun d => !isUp d)) := by
  intro l
  induction l with
  | nil =>
    intro cur hcur
    have hne : ¬ cur.isEmpty := by
      cases cur with
      | nil => exact absurd rfl hcur
      | cons a as => simp
    simp [splitWordsGo, splitWordsSpec, hne]
  | cons c rest ih =>
    intro cur hcur
    by_cases hup : isUp c
    · have hne : (isUp c && !cur.isEmpty) = true := by
        cases cur with
        | nil => exact absurd rfl hcur
        | cons a as => simp [hup]
      rw [splitWordsGo, if_pos hne, ih [c] (by simp)]
      have htw : (c :: rest).takeWhile (fun d => !isUp d) = [] := by
        simp [List.takeWhile_cons, hup]
      have hdw : (c :: rest).dropWhile (fun d => !isUp d) = c :: rest := by
        simp [List.dropWhile_cons, hup]
      rw [htw, hdw]
      simp [splitWordsSpec]
    · have hne : ¬ (isUp c && !cur.isEmpty) = true := by
        simp [hup]
      rw [splitWordsGo, if_neg hne, ih (cur ++ [c]) (by simp)]
      have htw : (c :: rest).takeWhile (fun d => !isUp d)
          = c :: rest.takeWhile (fun d => !isUp d) := by
        simp [List.takeWhile_cons, hup]
      have hdw : (c :: rest).dropWhile (fun d => !isUp d)
          = rest.dropWhile (fun d => !isUp d) := by
        simp [List.dropWhile_cons, hup]
      rw [htw, hdw]
      simp

/-- The accumulator-based word splitting of the source equals the
specification-worded splitting on every input. -/
theorem splitWords_eq_spec (isUp : Char → Bool) (l : List Char) :
    splitWords isUp l = splitWordsSpec isUp l := by
  cases l with
  | nil => simp [splitWords, splitWordsGo, splitWordsSpec]
  | cons c rest =>
    unfold splitWords
    rw [splitWordsGo]
    have hne : ¬ (isUp c && !(List.nil (α := Char)).isEmpty) = true := by simp
    rw [if_neg hne]
    have h0 : (List.nil (α := Char)) ++ [c] = [c] := rfl
    rw [h0, splitWordsGo_eq isUp rest [c] (by simp)]
    rw [splitWordsSpec]
    simp

/-- C6: `friendly_label` computes exactly the specification algorithm
(for every uppercase classifier and capitalizer), and on the ASCII
instantiation it maps the three specification examples correctly; an
input that is empty after trimming yields the empty string. -/
theorem friendly_label_correct :
    (∀ (isUp : Char → Bool) (capF : Char → List Char) (s : String),
        friendly_label isUp capF s = labelSpec isUp capF s) ∧
    friendly_labelA "https://example.com/FooBarBaz" = "Foo Bar Baz" ∧
    friendly_labelA "https://example.com/FooBarBaz/" = "Foo Bar Baz" ∧
    friendly_labelA "https://example.com" = "Example.com" ∧
    (∀ s : String, trimEnd s.toList = [] → friendly_labelA s = "") := by
  refine ⟨?_, by decide, by decide, by decide, ?_⟩
  · intro isUp capF s
    unfold friendly_label labelSpec
    rw [splitWords_eq_spec]
  · intro s hs
    unfold friendly_labelA friendly_label
    rw [hs]
    rfl

/-- Witness for C6: the trimmed-to-empty case at a concrete input. -/
theorem friendly_label_correct_witness :
    trimEnd "##".toList = [] ∧ friendly_labelA "##" = "" :=
  ⟨by decide, friendly_label_correct.2.2.2.2 "##" (by decide)⟩

/- ## Value classifier (`fn friendly_value`)

The GLib pipeline `DateTime::from_iso8601(obj, None)` followed by
`to_local()` and `format("%F %T")` is an external collaborator; it is
taken as a parameter `fmt : String → Option String` returning the
local-time `YYYY-MM-DD HH:MM:SS` rendering when the input parses as
ISO-8601 with a time-zone indicator, and `none` otherwise. -/

/-- `fn friendly_value(obj, dtype)`: when the datatype is the date/time
constant and the formatter succeeds, return the formatted local time;
in every other case return the raw value unchanged. -/
def friendly_value (fmt : String → Option String) (obj dtype : String) : String :=
  if dtype = XSD_DATETYPE then
    match fmt obj with
    | some s => s
    | none => obj
  else obj

/-- C4: `friendly_value` is total by construction and its display value
obeys the classifier rules: an empty datatype yields the value
verbatim; the date/time datatype yields the formatter output when the
value parses and the value unchanged when it does not; any other
datatype yields the value unchanged. -/
theorem friendly_value_cases (fmt : String → Option String) (obj dtype : String) :
    (dtype = "" → friendly_value fmt obj dtype = obj) ∧
    (dtype = XSD_DATETYPE →
      friendly_value fmt obj dtype = (fmt obj).getD obj) ∧
    (dtype ≠ XSD_DATETYPE → friendly_value fmt obj dtype = obj) := by
  refine ⟨?_, ?_, ?_⟩
  · intro he
    subst he
    have hne : ("" : String) ≠ XSD_DATETYPE := by decide
    simp [friendly_value, hne]
  · intro hd
    subst hd
    simp only [friendly_value, if_pos rfl]
    cases fmt obj with
    | none => rfl
    | some s => rfl
  · intro hne
    simp [friendly_value, hne]

/-- A concrete stand-in for the GLib date formatter, used by witnesses:
it recognises a single ISO-8601 instant and produces its local-time
rendering; the rendering itself (no `T`, no zone designator) does not
re-parse, matching GLib with a `None` default time zone. -/
def fmt0 : String → Option String :=
  fun v => if v = "2024-06-04T12:34:56Z" then some "2024-06-04 14:34:56" else none

/-- Witness for C4: the three classifier cases at concrete inputs. -/
theorem friendly_value_cases_witness :
    friendly_value fmt0 "http://example.com/x" "" = "http://example.com/x" ∧
    friendly_value fmt0 "2024-06-04T12:34:56Z" XSD_DATETYPE = "2024-06-04 14:34:56" ∧
    friendly_value fmt0 "hello" "other" = "hello" :=
  ⟨(friendly_value_cases fmt0 "http://example.com/x" "").1 rfl,
   ((friendly_value_cases fmt0 "2024-06-04T12:34:56Z" XSD_DATETYPE).2.1 rfl).trans (by decide),
   (friendly_value_cases fmt0 "hello" "other").2.2 (by decide)⟩

/-- C5: `friendly_value` is idempotent whenever the formatter output
never re-parses (GLib rejects the produced `YYYY-MM-DD HH:MM:SS` form
because it carries no time-zone indicator and the call passes no
default zone): reclassifying the display value with the same datatype
returns it unchanged. -/
theorem friendly_value_idem (fmt : String → Option String)
    (hfmt : ∀ v s, fmt v = some s → fmt s = none) (obj dtype : String) :
    friendly_value fmt (friendly_value fmt obj dtype) dtype
      = friendly_value fmt obj dtype := by
  by_cases hd : dtype = XSD_DATETYPE
  · subst hd
    cases hv : fmt obj with
    | none =>
      have hobj : friendly_value fmt obj XSD_DATETYPE = obj := by
        unfold friendly_value
        rw [if_pos rfl, hv]
      rw [hobj]
      exact hobj
    | some s =>
      have hobj : friendly_value fmt obj XSD_DATETYPE = s := by
        unfold friendly_value
        rw [if_pos rfl, hv]
      have hs : friendly_value fmt s XSD_DATETYPE = s := by
        unfold friendly_value
        rw [if_pos rfl, hfmt obj s hv]
      rw [hobj]
      exact hs
  · simp [friendly_value, hd]

/-- Witness for C5: the formatter stand-in satisfies the no-re-parse
hypothesis and the date case is idempotent at a concrete input. -/
theorem friendly_value_idem_witness :
    (∀ v s, fmt0 v = some s → fmt0 s = none) ∧
    friendly_value fmt0 (friendly_value fmt0 "2024-06-04T12:34:56Z" XSD_DATETYPE) XSD_DATETYPE
      = friendly_value fmt0 "2024-06-04T12:34:56Z" XSD_DATETYPE := by
  have hfmt : ∀ v s, fmt0 v = some s → fmt0 s = none := by
    intro v s hv
    unfold fmt0 at hv ⊢
    by_cases hcase : v = "2024-06-04T12:34:56Z"
    · rw [if_pos hcase] at hv
      injection hv with h2
      rw [← h2]
      decide
    · rw [if_neg hcase] at hv
      exact absurd hv (by simp)
  exact ⟨hfmt, friendly_value_idem fmt0 hfmt "2024-06-04T12:34:56Z" XSD_DATETYPE⟩

/- ## URI capability checker (`fn uri_has_handler`, `fn looks_like_uri`)

The URL parser, the indexed content-type lookup, the content-type
guesser and the application registry are external collaborators; the
embedding receives them bundled in an `Env`. -/

/-- What the program observes of a successfully parsed URL: its scheme,
and the platform path when `to_file_path()` followed by `to_str()`
succeeds. -/
structure ParsedUrl where
  scheme : String
  filePath : Option String
deriving DecidableEq

/-- The external collaborators consulted by `uri_has_handler`. -/
structure Env where
  parse : String → Option ParsedUrl
  indexedContentType : String → Option String
  guessContentType : String → String
  hasDefaultForType : String → Bool
  hasDefaultForScheme : String → Bool

/-- Outcome of the capability check (`Result<(), String>` in the source). -/
inductive HandlerResult
  | ok
  | err (msg : String)
deriving DecidableEq

/-- `Result::is_ok`. -/
def HandlerResult.isOk : HandlerResult → Bool
  | .ok => true
  | .err _ => false

/-- The content type used for a file URI: the indexed content type when
the index has one, otherwise the local best-guess detector. -/
def resolveMime (env : Env) (uri p : String) : String :=
  (env.indexedContentType uri).getD (env.guessContentType p)

/-- `fn uri_has_handler(uri)`: parse the URI; on parse failure succeed
trivially.  For a `file` URI whose platform path is available, resolve
the content type and fail when no application is registered for it; for
any other scheme fail when no application is registered for the scheme. -/
def uri_has_handler (env : Env) (uri : String) : HandlerResult :=
  match env.parse uri with
  | none => .ok
  | some u =>
    if u.scheme = "file" then
      match u.filePath with
      | some p =>
        if env.hasDefaultForType (resolveMime env uri p) then .ok
        else .err ("No application available for type \"" ++ resolveMime env uri p ++ "\".")
      | none => .ok
    else
      if env.hasDefaultForScheme u.scheme then .ok
      else .err ("No application available for scheme \"" ++ u.scheme ++ "\".")

/-- `fn looks_like_uri(s)`: the purely syntactic URI check. -/
def looks_like_uri (env : Env) (s : String) : Bool :=
  (env.parse s).isSome

/-- The bottom-bar "Open" button gate (`open_subject_window`, line
`if uri_has_handler(&uri).is_ok()`). -/
def openButtonShown (env : Env) (uri : String) : Bool :=
  (uri_has_handler env uri).isOk

/-- The context-menu "Open Externally" gate (`add_copy_menu`, line
`if looks_like_uri(&native) && uri_has_handler(&native).is_ok()`). -/
def openExternallyShown (env : Env) (s : String) : Bool :=
  looks_like_uri env s && (uri_has_handler env s).isOk

/-- C9: a string that does not parse as a URI always passes the check;
a `file` URI with an available platform path fails with the
"no application for type" message exactly when no application is
registered for the resolved content type; a URI of any other scheme
fails with the "no application for scheme" message exactly when no
application is registered for that scheme. -/
theorem uri_has_handler_cases (env : Env) (uri : String) :
    (env.parse uri = none → uri_has_handler env uri = .ok) ∧
    (∀ u p, env.parse uri = some u → u.scheme = "file" → u.filePath = some p →
      uri_has_handler env uri =
        (if env.hasDefaultForType (resolveMime env uri p) then .ok
         else .err ("No application available for type \"" ++ resolveMime env uri p ++ "\"."))) ∧
    (∀ u, env.parse uri = some u → u.scheme ≠ "file" →
      uri_has_handler env uri =
        (if env.hasDefaultForScheme u.scheme then .ok
         else .err ("No application available for scheme \"" ++ u.scheme ++ "\"."))) := by
  refine ⟨?_, ?_, ?_⟩
  · intro hp
    unfold uri_has_handler
    rw [hp]
  · intro u p hp hs hf
    unfold uri_has_handler
    rw [hp]
    show (if u.scheme = "file" then _ else _) = _
    rw [if_pos hs, hf]
  · intro u hp hs
    unfold uri_has_handler
    rw [hp]
    show (if u.scheme = "file" then _ else _) = _
    rw [if_neg hs]

/-- A concrete collaborator environment used by witnesses: it parses
three fixed URIs, indexes nothing, guesses plain text, and registers
applications for the plain-text type and the `http` scheme only. -/
def envTest : Env where
  parse := fun s =>
    if s = "file:///tmp/test" then some ⟨"file", some "/tmp/test"⟩
    else if s = "nosuchscheme://foo" then some ⟨"nosuchscheme", none⟩
    else if s = "http://example.com/" then some ⟨"http", none⟩
    else none
  indexedContentType := fun _ => none
  guessContentType := fun _ => "text/plain"
  hasDefaultForType := fun m => decide (m = "text/plain")
  hasDefaultForScheme := fun sch => decide (sch = "http")

/-- Witness for C9: a non-URI string passes trivially, the `file` URI
example resolves its content type and passes, and the unknown-scheme
example fails with the scheme message. -/
theorem uri_has_handler_cases_witness :
    uri_has_handler envTest "not a uri" = .ok ∧
    uri_has_handler envTest "file:///tmp/test" = .ok ∧
    uri_has_handler envTest "nosuchscheme://foo"
      = .err ("No application available for scheme \"nosuchscheme\".") :=
  ⟨(uri_has_handler_cases envTest "not a uri").1 (by decide),
   (((uri_has_handler_cases envTest "file:///tmp/test").2.1
      ⟨"file", some "/tmp/test"⟩ "/tmp/test" (by decide) rfl rfl).trans (by decide)),
   (((uri_has_handler_cases envTest "nosuchscheme://foo").2.2
      ⟨"nosuchscheme", none⟩ (by decide) (by decide)).trans (by decide))⟩

/-- C10 counterexample: on a string that does not parse as a URI the two
openability gates disagree — the bottom-bar "Open" button gate is true
(the capability check succeeds trivially) while the context-menu
"Open Externally" gate is false (it additionally requires the syntactic
URI check), so the two surfaces are not the same function of the
string. -/
theorem open_gates_disagree_counterexample :
    openButtonShown envTest "not a uri" = true ∧
    openExternallyShown envTest "not a uri" = false := by
  decide

/-- C10 amended: the context-menu gate is the conjunction of the
syntactic URI check with the capability check, so the two gates agree
on every string that parses as a URI; on a string that does not parse,
the button gate is true and the menu gate is false. -/
theorem open_gates_agree_on_parsable (env : Env) (s : String) :
    ((env.parse s).isSome → openButtonShown env s = openExternallyShown env s) ∧
    (env.parse s = none →
      openButtonShown env s = true ∧ openExternallyShown env s = false) := by
  constructor
  · intro hsome
    unfold openButtonShown openExternallyShown looks_like_uri
    rw [Option.isSome_iff_exists] at hsome
    obtain ⟨u, hu⟩ := hsome
    rw [hu]
    rfl
  · intro hnone
    have hok : uri_has_handler env s = .ok := by
      unfold uri_has_handler
      rw [hnone]
    unfold openButtonShown openExternallyShown looks_like_uri
    rw [hok, hnone]
    exact ⟨rfl, rfl⟩

/-- Witness for C10 amended: agreement on a parsable string and the
trivial-success/hidden-menu pair on an unparsable one, at concrete
inputs. -/
theorem open_gates_agree_witness :
    openButtonShown envTest "file:///tmp/test" = openExternallyShown envTest "file:///tmp/test" ∧
    (openButtonShown envTest "zzz" = true ∧ openExternallyShown envTest "zzz" = false) :=
  ⟨(open_gates_agree_on_parsable envTest "file:///tmp/test").1 (by decide),
   (open_gates_agree_on_parsable envTest "zzz").2 (by decide)⟩

/- ## Metadata aggregator (the pure core of `async fn populate_grid`)

The SPARQL query result is modelled as the list of `(pred, obj, dtype)`
triples the cursor yields, or one of the two failure outcomes
(connection error vs. query error).  The Rust `HashMap` is modelled as
an association list with unique keys, which is observationally
equivalent for the lookups the code performs. -/

/-- One result row of the describe query. -/
structure Triple where
  pred : String
  obj : String
  dtype : String
deriving DecidableEq

/-- Concatenation of a list of lists (explicit, structural). -/
def concatAll {α : Type} : List (List α) → List α
  | [] => []
  | l :: ls => l ++ concatAll ls

/-- Association-list lookup by key. -/
def alookup {α : Type} : List (String × α) → String → Option α
  | [], _ => none
  | (k, v) :: rest, p => if p = k then some v else alookup rest p

/-- `map.contains_key(&pred)`. -/
def mapContains (m : List (String × List (String × String))) (k : String) : Bool :=
  (alookup m k).isSome

/-- `map.get_mut(&pred).unwrap().push(v)`: append `v` to the value list
stored under key `k` (no-op when the key is absent; the caller has just
ensured it is present). -/
def mapAppend (m : List (String × List (String × String))) (k : String)
    (v : String × String) : List (String × List (String × String)) :=
  m.map (fun e => if e.1 = k then (e.1, e.2 ++ [v]) else e)

/-- The accumulator of the cursor loop: the predicate order list, the
predicate → values map, and the file-object flag. -/
structure FoldSt where
  order : List String
  map : List (String × List (String × String))
  isFile : Bool

/-- One iteration of the cursor loop of `populate_grid`: record the
predicate on first sight, append the `(obj, dtype)` pair to its value
list, and raise the file-object flag on an `rdf:type FileDataObject`
triple. -/
def foldStep (st : FoldSt) (t : Triple) : FoldSt :=
  let st1 :=
    if mapContains st.map t.pred then st
    else { st with order := st.order ++ [t.pred], map := st.map ++ [(t.pred, [])] }
  let st2 := { st1 with map := mapAppend st1.map t.pred (t.obj, t.dtype) }
  if t.pred = RDF_TYPE ∧ t.obj = FILEDATAOBJECT then { st2 with isFile := true } else st2

/-- Construction of one presentation row (the `TableRow` push in the
row-building loop): display predicate from `friendly_label`, display
value from `friendly_value` unless the datatype is empty, native fields
verbatim. -/
def mkRow (fmt : String → Option String) (pred : String) (e : String × String) : TableRow where
  display_predicate := friendly_labelA pred
  native_predicate := pred
  display_value := if e.2 = "" then e.1 else friendly_value fmt e.1 e.2
  native_value := e.1

/-- The row-building loop of `populate_grid`: predicates in order-list
order, each predicate's values in arrival order. -/
def buildRows (fmt : String → Option String) (st : FoldSt) : List TableRow :=
  concatAll (st.order.map (fun pred =>
    match alookup st.map pred with
    | none => []
    | some entries => entries.map (mkRow fmt pred)))

/-- The synthetic Identifier row always pushed first. -/
def identRow (uri : String) : TableRow :=
  ⟨"Identifier", "Identifier", uri, uri⟩

/-- Outcome of the store interaction: connection failure, query
failure, or the triple stream. -/
inductive StoreResult
  | connError
  | queryError
  | ok (triples : List Triple)

/-- What `populate_grid` produces: the returned pair plus the error
dialog it surfaces on failure (the dialog title distinguishes the two
failure kinds). -/
structure DescribeOut where
  isFileLike : Bool
  rows : List TableRow
  errorDialog : Option String
deriving DecidableEq

/-- The pure core of `async fn populate_grid`: on either failure a
dialog is shown and `(false, Vec::new())` is returned (the already
pushed Identifier row is discarded with `rows_vec`); on success the
cursor stream is folded and the Identifier row is followed by the
grouped rows. -/
def populate_grid (fmt : String → Option String) (uri : String)
    (res : StoreResult) : DescribeOut :=
  match res with
  | .connError => ⟨false, [], some "Failed to connect to Tracker"⟩
  | .queryError => ⟨false, [], some "SPARQL query error"⟩
  | .ok ts =>
    let st := ts.foldl foldStep ⟨[], [], false⟩
    ⟨st.isFile, identRow uri :: buildRows fmt st, none⟩

/-- First-occurrence deduplication of a key list (specification side:
"predicate block order equals first-occurrence order"). -/
def firstOcc : List String → List String
  | [] => []
  | x :: xs => x :: (firstOcc xs).filter (fun y => !decide (y = x))

/-- Whether a triple is the distinguished `(rdf:type, FileDataObject)`
fact (specification side of the file-likeness flag). -/
def isFileTriple (t : Triple) : Bool :=
  decide (t.pred = RDF_TYPE) && decide (t.obj = FILEDATAOBJECT)

/-- The `(obj, dtype)` pairs of a predicate, in arrival order
(specification side: "values within a block in arrival order"). -/
def valsOf (ts : List Triple) (p : String) : List (String × String) :=
  (ts.filter (fun t => decide (t.pred = p))).map (fun t => (t.obj, t.dtype))

/-- The specification-side row list: one block per predicate in
first-occurrence order, one row per value in arrival order, every row
of a block built from the same predicate. -/
def specRows (fmt : String → Option String) (ts : List Triple) : List TableRow :=
  concatAll ((firstOcc (ts.map Triple.pred)).map (fun p => (valsOf ts p).map (mkRow fmt p)))

/-- Lookup in a concatenated association list: the left part wins. -/
theorem alookup_append {α : Type} (m m' : List (String × α)) (p : String) :
    alookup (m ++ m') p =
      match alookup m p with
      | some v => some v
      | none => alookup m' p := by
  induction m with
  | nil => rfl
  | cons e rest ih =>
    obtain ⟨k, v⟩ := e
    by_cases hp : p = k
    · simp [alookup, hp]
    · simp only [List.cons_append, alookup, if_neg hp]
      exact ih

/-- Unfolding of lookup at a cons cell. -/
theorem alookup_cons {α : Type} (a : String) (b : α) (rest : List (String × α)) (p : String) :
    alookup ((a, b) :: rest) p = if p = a then some b else alookup rest p := rfl

/-- Unfolding of `mapAppend` at a cons cell. -/
theorem mapAppend_cons (k0 : String) (v0 : List (String × String))
    (rest : List (String × List (String × String))) (k : String) (v : String × String) :
    mapAppend ((k0, v0) :: rest) k v
      = (if k0 = k then (k0, v0 ++ [v]) else (k0, v0)) :: mapAppend rest k v := by
  unfold mapAppend
  rw [List.map_cons]

/-- Lookup after `mapAppend`: the value list under the updated key
grows by the appended element; all other keys are untouched. -/
theorem alookup_mapAppend (m : List (String × List (String × String)))
    (k : String) (v : String × String) (p : String) :
    alookup (mapAppend m k v) p =
      if p = k then (alookup m k).map (fun l => l ++ [v]) else alookup m p := by
  induction m with
  | nil =>
    by_cases hp : p = k <;> simp [mapAppend, alookup, hp]
  | cons e rest ih =>
    obtain ⟨k0, v0⟩ := e
    rw [mapAppend_cons]
    by_cases hk0 : k0 = k
    · rw [if_pos hk0]
      subst hk0
      by_cases hp : p = k0
      · subst hp
        simp [alookup_cons]
      · simp [alookup_cons, hp, ih]
    · rw [if_neg hk0]
      by_cases hp : p = k0
      · subst hp
        have hpk : ¬ p = k := hk0
        simp [alookup_cons, hpk]
      · have hk0' : ¬ k = k0 := fun h => hk0 h.symm
        simp [alookup_cons, hp, hk0', ih]

/-- Appending one key to a list: its first-occurrence deduplication
grows by the key exactly when the key is new. -/
theorem firstOcc_append (l : List String) (x : String) :
    firstOcc (l ++ [x]) = if x ∈ l then firstOcc l else firstOcc l ++ [x] := by
  induction l with
  | nil => simp [firstOcc]
  | cons a rest ih =>
    rw [List.cons_append,
      show firstOcc (a :: (rest ++ [x]))
        = a :: (firstOcc (rest ++ [x])).filter (fun y => !decide (y = a)) from rfl,
      ih,
      show firstOcc (a :: rest)
        = a :: (firstOcc rest).filter (fun y => !decide (y = a)) from rfl]
    by_cases hx : x ∈ rest
    · rw [if_pos hx, if_pos (List.mem_cons_of_mem a hx)]
    · rw [if_neg hx]
      by_cases hxa : x = a
      · subst hxa
        rw [if_pos (List.mem_cons_self x rest), List.filter_append]
        simp
      · rw [if_neg (by simp [hxa, hx] : ¬ x ∈ a :: rest), List.filter_append]
        simp [hxa]

/-- Membership is preserved by first-occurrence deduplication. -/
theorem mem_firstOcc (l : List String) (p : String) :
    p ∈ firstOcc l ↔ p ∈ l := by
  induction l with
  | nil => simp [firstOcc]
  | cons a rest ih =>
    simp only [firstOcc, List.mem_cons, List.mem_filter, ih]
    constructor
    · rintro (h | ⟨h, _⟩)
      · exact Or.inl h
      · exact Or.inr h
    · rintro (h | h)
      · exact Or.inl h
      · by_cases hpa : p = a
        · exact Or.inl hpa
        · exact Or.inr ⟨h, by simp [hpa]⟩

/-- The value list of a predicate after one more triple arrives. -/
theorem valsOf_append (done : List Triple) (t : Triple) (p : String) :
    valsOf (done ++ [t]) p =
      valsOf done p ++ (if t.pred = p then [(t.obj, t.dtype)] else []) := by
  unfold valsOf
  rw [List.filter_append, List.map_append]
  by_cases hp : t.pred = p
  · simp [hp]
  · simp [hp]

/-- A predicate absent from the stream has no values. -/
theorem valsOf_of_not_mem (done : List Triple) (p : String)
    (h : p ∉ done.map Triple.pred) : valsOf done p = [] := by
  unfold valsOf
  rw [List.filter_eq_nil_iff.mpr, List.map_nil]
  intro t ht
  simp only [decide_eq_true_eq]
  intro habs
  exact h (habs ▸ List.mem_map_of_mem Triple.pred ht)

/-- Mapping a congruent function over the same list. -/
theorem map_congr_mem {α β : Type} (l : List α) (f g : α → β)
    (h : ∀ a ∈ l, f a = g a) : l.map f = l.map g := by
  induction l with
  | nil => rfl
  | cons a rest ih =>
    simp only [List.map_cons]
    rw [h a (List.mem_cons_self a rest), ih (fun b hb => h b (List.mem_cons_of_mem a hb))]

/-- Length of a concatenation of lists. -/
theorem concatAll_length {α : Type} (ls : List (List α)) :
    (concatAll ls).length = (ls.map List.length).sum := by
  induction ls with
  | nil => rfl
  | cons l rest ih =>
    simp [concatAll, List.length_append, ih]

/-- The loop invariant of the cursor fold: after processing `done`, the
order list holds the first occurrences of the predicates seen, the map
holds each seen predicate's values in arrival order, and the flag
records whether a file-object type triple has been seen. -/
def describeInv (done : List Triple) (st : FoldSt) : Prop :=
  st.order = firstOcc (done.map Triple.pred) ∧
  (∀ p, alookup st.map p =
    if p ∈ done.map Triple.pred then some (valsOf done p) else none) ∧
  st.isFile = done.any isFileTriple

/-- `foldStep` on an already seen predicate: order unchanged, value
appended, flag possibly raised. -/
theorem foldStep_eq_seen (st : FoldSt) (t : Triple)
    (hc : mapContains st.map t.pred = true) :
    foldStep st t =
      { order := st.order
      , map := mapAppend st.map t.pred (t.obj, t.dtype)
      , isFile := if t.pred = RDF_TYPE ∧ t.obj = FILEDATAOBJECT then true else st.isFile } := by
  unfold foldStep
  rw [if_pos hc]
  by_cases hd : t.pred = RDF_TYPE ∧ t.obj = FILEDATAOBJECT
  · rw [if_pos hd, if_pos hd]
  · rw [if_neg hd, if_neg hd]

/-- `foldStep` on a new predicate: the predicate is appended to the
order list and to the map with its first value. -/
theorem foldStep_eq_new (st : FoldSt) (t : Triple)
    (hc : mapContains st.map t.pred = false) :
    foldStep st t =
      { order := st.order ++ [t.pred]
      , map := mapAppend (st.map ++ [(t.pred, [])]) t.pred (t.obj, t.dtype)
      , isFile := if t.pred = RDF_TYPE ∧ t.obj = FILEDATAOBJECT then true else st.isFile } := by
  unfold foldStep
  rw [if_neg (by rw [hc]; simp : ¬ (mapContains st.map t.pred = true))]
  by_cases hd : t.pred = RDF_TYPE ∧ t.obj = FILEDATAOBJECT
  · rw [if_pos hd, if_pos hd]
  · rw [if_neg hd, if_neg hd]

/-- `isFileTriple` as a conditional. -/
theorem isFileTriple_eq (t : Triple) :
    isFileTriple t = if t.pred = RDF_TYPE ∧ t.obj = FILEDATAOBJECT then true else false := by
  unfold isFileTriple
  by_cases hd : t.pred = RDF_TYPE ∧ t.obj = FILEDATAOBJECT
  · rw [if_pos hd, decide_eq_true hd.1, decide_eq_true hd.2]
    rfl
  · rw [if_neg hd]
    by_cases h1 : t.pred = RDF_TYPE
    · have h2 : ¬ t.obj = FILEDATAOBJECT := fun h2 => hd ⟨h1, h2⟩
      simp [h1, h2]
    · simp [h1]

/-- One cursor iteration preserves the invariant. -/
theorem foldStep_inv (done : List Triple) (st : FoldSt) (t : Triple)
    (h : describeInv done st) : describeInv (done ++ [t]) (foldStep st t) := by
  obtain ⟨ho, hm, hf⟩ := h
  have hpreds : (done ++ [t]).map Triple.pred = done.map Triple.pred ++ [t.pred] := by
    simp
  have hfile :
      (if t.pred = RDF_TYPE ∧ t.obj = FILEDATAOBJECT then true else st.isFile)
        = (done ++ [t]).any isFileTriple := by
    rw [List.any_append]
    have hsing : [t].any isFileTriple = isFileTriple t := by simp
    rw [hsing, isFileTriple_eq]
    by_cases hd : t.pred = RDF_TYPE ∧ t.obj = FILEDATAOBJECT
    · simp [hd]
    · simp [hd, hf]
  by_cases hk : t.pred ∈ done.map Triple.pred
  · have hcont : mapContains st.map t.pred = true := by
      unfold mapContains
      rw [hm t.pred, if_pos hk]
      rfl
    rw [foldStep_eq_seen st t hcont]
    refine ⟨?_, ?_, hfile⟩
    · show st.order = firstOcc ((done ++ [t]).map Triple.pred)
      rw [hpreds, firstOcc_append, if_pos hk, ho]
    · intro p
      show alookup (mapAppend st.map t.pred (t.obj, t.dtype)) p = _
      rw [alookup_mapAppend, hpreds]
      by_cases hp : p = t.pred
      · subst hp
        rw [if_pos rfl, hm t.pred, if_pos hk]
        rw [if_pos (by simp : t.pred ∈ done.map Triple.pred ++ [t.pred])]
        rw [valsOf_append, if_pos rfl]
        rfl
      · rw [if_neg hp, hm p]
        have hmem : (p ∈ done.map Triple.pred ++ [t.pred]) ↔ p ∈ done.map Triple.pred := by
          simp [hp]
        have hvals : valsOf (done ++ [t]) p = valsOf done p := by
          rw [valsOf_append, if_neg (fun h2 => hp h2.symm), List.append_nil]
        by_cases hpm : p ∈ done.map Triple.pred
        · rw [if_pos hpm, if_pos (hmem.mpr hpm), hvals]
        · rw [if_neg hpm, if_neg (fun h2 => hpm (hmem.mp h2))]
  · have hcont : mapContains st.map t.pred = false := by
      unfold mapContains
      rw [hm t.pred, if_neg hk]
      rfl
    rw [foldStep_eq_new st t hcont]
    refine ⟨?_, ?_, hfile⟩
    · show st.order ++ [t.pred] = firstOcc ((done ++ [t]).map Triple.pred)
      rw [hpreds, firstOcc_append, if_neg hk, ho]
    · intro p
      show alookup (mapAppend (st.map ++ [(t.pred, [])]) t.pred (t.obj, t.dtype)) p = _
      rw [alookup_mapAppend, hpreds]
      have hlk : alookup (st.map ++ [(t.pred, [])]) t.pred = some [] := by
        rw [alookup_append, hm t.pred, if_neg hk]
        show alookup [(t.pred, [])] t.pred = some []
        rw [alookup_cons, if_pos rfl]
      by_cases hp : p = t.pred
      · subst hp
        rw [if_pos rfl, hlk]
        rw [if_pos (by simp : t.pred ∈ done.map Triple.pred ++ [t.pred])]
        rw [valsOf_append, if_pos rfl, valsOf_of_not_mem done t.pred hk, List.nil_append]
        rfl
      · rw [if_neg hp]
        have hmem : (p ∈ done.map Triple.pred ++ [t.pred]) ↔ p ∈ done.map Triple.pred := by
          simp [hp]
        have hvals : valsOf (done ++ [t]) p = valsOf done p := by
          rw [valsOf_append, if_neg (fun h2 => hp h2.symm), List.append_nil]
        rw [alookup_append, hm p]
        by_cases hpm : p ∈ done.map Triple.pred
        · rw [if_pos hpm, if_pos (hmem.mpr hpm), hvals]
        · rw [if_neg hpm, if_neg (fun h2 => hpm (hmem.mp h2))]
          show alookup [(t.pred, [])] p = none
          rw [alookup_cons, if_neg hp]
          rfl

/-- The cursor fold preserves the invariant along any stream suffix. -/
theorem foldl_inv (ts : List Triple) :
    ∀ (done : List Triple) (st : FoldSt), describeInv done st →
      describeInv (done ++ ts) (ts.foldl foldStep st) := by
  induction ts with
  | nil =>
    intro done st h
    simpa using h
  | cons t rest ih =>
    intro done st h
    rw [List.foldl_cons]
    have h2 := ih (done ++ [t]) (foldStep st t) (foldStep_inv done st t h)
    rwa [List.append_assoc] at h2

/-- The invariant holds at the empty initial state. -/
theorem describeInv_init : describeInv [] ⟨[], [], false⟩ := by
  refine ⟨rfl, ?_, rfl⟩
  intro p
  simp [alookup]

/-- The invariant at the end of the whole stream. -/
theorem describeInv_final (ts : List Triple) :
    describeInv ts (ts.foldl foldStep ⟨[], [], false⟩) := by
  have h := foldl_inv ts [] ⟨[], [], false⟩ describeInv_init
  rwa [List.nil_append] at h

/-- The row-building loop over the folded state produces exactly the
specification-side row list. -/
theorem buildRows_eq_specRows (fmt : String → Option String) (ts : List Triple) :
    buildRows fmt (ts.foldl foldStep ⟨[], [], false⟩) = specRows fmt ts := by
  obtain ⟨ho, hm, _⟩ := describeInv_final ts
  unfold buildRows specRows
  rw [ho]
  congr 1
  apply map_congr_mem
  intro p hp
  rw [hm p, if_pos ((mem_firstOcc _ p).mp hp)]

/-- Filtering twice with the same predicate filters once. -/
theorem filter_self_twice {α : Type} (p : α → Bool) (l : List α) :
    (l.filter p).filter p = l.filter p := by
  induction l with
  | nil => rfl
  | cons a rest ih =>
    rw [List.filter_cons]
    by_cases hp : p a = true
    · rw [if_pos hp, List.filter_cons, if_pos hp, ih]
    · rw [if_neg hp, ih]

/-- Two successive filters commute. -/
theorem filter_comm_own {α : Type} (p q : α → Bool) (l : List α) :
    (l.filter p).filter q = (l.filter q).filter p := by
  induction l with
  | nil => rfl
  | cons a rest ih =>
    rw [List.filter_cons, List.filter_cons]
    by_cases hp : p a = true
    · by_cases hq : q a = true
      · rw [if_pos hp, if_pos hq, List.filter_cons, List.filter_cons,
          if_pos hq, if_pos hp, ih]
      · rw [if_pos hp, if_neg hq, List.filter_cons, if_neg hq, ih]
    · by_cases hq : q a = true
      · rw [if_neg hp, if_pos hq, List.filter_cons, if_neg hp, ih]
      · rw [if_neg hp, if_neg hq, ih]

/-- Pointwise equal predicates filter identically. -/
theorem filter_congr_own {α : Type} (p q : α → Bool) (l : List α)
    (h : ∀ a ∈ l, p a = q a) : l.filter p = l.filter q := by
  induction l with
  | nil => rfl
  | cons a rest ih =>
    rw [List.filter_cons, List.filter_cons, h a (List.mem_cons_self a rest),
      ih (fun b hb => h b (List.mem_cons_of_mem a hb))]

/-- Filtering a mapped list is mapping a filtered list. -/
theorem filter_map_comm_own {α β : Type} (f : α → β) (p : β → Bool) (l : List α) :
    (l.map f).filter p = (l.filter (fun x => p (f x))).map f := by
  induction l with
  | nil => rfl
  | cons a rest ih =>
    rw [List.map_cons, List.filter_cons, List.filter_cons]
    by_cases hp : p (f a) = true
    · rw [if_pos hp, if_pos hp, List.map_cons, ih]
    · rw [if_neg hp, if_neg hp, ih]

/-- First-occurrence deduplication commutes with removing one key. -/
theorem firstOcc_filter (k : String) (l : List String) :
    firstOcc (l.filter (fun y => !decide (y = k)))
      = (firstOcc l).filter (fun y => !decide (y = k)) := by
  induction l with
  | nil => rfl
  | cons a rest ih =>
    rw [List.filter_cons]
    by_cases ha : a = k
    · rw [if_neg (by simp [ha] : ¬ ((fun y => !decide (y = k)) a = true))]
      rw [ih,
        show firstOcc (a :: rest)
          = a :: (firstOcc rest).filter (fun y => !decide (y = a)) from rfl,
        List.filter_cons,
        if_neg (by simp [ha] : ¬ ((fun y => !decide (y = k)) a = true))]
      subst ha
      rw [filter_self_twice]
    · rw [if_pos (by simp [ha] : (fun y => !decide (y = k)) a = true)]
      rw [show firstOcc (a :: rest.filter (fun y => !decide (y = k)))
          = a :: (firstOcc (rest.filter (fun y => !decide (y = k)))).filter
              (fun y => !decide (y = a)) from rfl,
        ih,
        show firstOcc (a :: rest)
          = a :: (firstOcc rest).filter (fun y => !decide (y = a)) from rfl,
        List.filter_cons,
        if_pos (by simp [ha] : (fun y => !decide (y = k)) a = true),
        filter_comm_own]

/-- Filtering never lengthens a list. -/
theorem filter_length_le {α : Type} (p : α → Bool) (l : List α) :
    (l.filter p).length ≤ l.length := by
  induction l with
  | nil => simp
  | cons a rest ih =>
    rw [List.filter_cons]
    by_cases hp : p a = true
    · rw [if_pos hp]
      simp only [List.length_cons]
      omega
    · rw [if_neg hp]
      simp only [List.length_cons]
      omega

/-- The grouped blocks (one block of original triples per
first-occurrence predicate) are a permutation of the stream: grouping
loses and duplicates nothing. -/
theorem blocks_perm : ∀ (n : Nat) (ts : List Triple), ts.length ≤ n →
    List.Perm
      (concatAll ((firstOcc (ts.map Triple.pred)).map
        (fun p => ts.filter (fun t => decide (t.pred = p)))))
      ts := by
  intro n
  induction n with
  | zero =>
    intro ts h
    have h0 : ts = [] := List.length_eq_zero.mp (Nat.le_zero.mp h)
    subst h0
    simp [firstOcc, concatAll]
  | succ n ih =>
    intro ts h
    match ts with
    | [] => simp [firstOcc, concatAll]
    | t :: rest =>
      have hfo : firstOcc ((t :: rest).map Triple.pred)
          = t.pred :: (firstOcc (rest.map Triple.pred)).filter
              (fun y => !decide (y = t.pred)) := rfl
      rw [hfo, List.map_cons, concatAll]
      have hhead : (t :: rest).filter (fun x => decide (x.pred = t.pred))
          = t :: rest.filter (fun x => decide (x.pred = t.pred)) := by
        rw [List.filter_cons, if_pos (by simp : decide (t.pred = t.pred) = true)]
      set restK := rest.filter (fun x => !decide (x.pred = t.pred)) with hrestK
      have hfo2 : (firstOcc (rest.map Triple.pred)).filter (fun y => !decide (y = t.pred))
          = firstOcc (restK.map Triple.pred) := by
        rw [← firstOcc_filter, hrestK, filter_map_comm_own]
      have hblocks :
          ((firstOcc (restK.map Triple.pred)).map
              (fun p => (t :: rest).filter (fun x => decide (x.pred = p))))
            = ((firstOcc (restK.map Triple.pred)).map
              (fun p => restK.filter (fun x => decide (x.pred = p)))) := by
        apply map_congr_mem
        intro p hp
        have hpmem : p ∈ restK.map Triple.pred := (mem_firstOcc _ p).mp hp
        obtain ⟨x, hx, hxp⟩ := List.mem_map.mp hpmem
        have hxk : ¬ x.pred = t.pred := by
          have := List.mem_filter.mp hx
          simpa using this.2
        have hpk : ¬ p = t.pred := fun hpk => hxk (hxp ▸ hpk)
        have hkp : ¬ t.pred = p := fun h2 => hpk h2.symm
        rw [List.filter_cons, if_neg (by simp [hkp] : ¬ (decide (t.pred = p) = true))]
        rw [hrestK, filter_comm_own]
        symm
        apply List.filter_eq_self.mpr
        intro a ha
        have hap : a.pred = p := by simpa using (List.mem_filter.mp ha).2
        simp [hap, hpk]
      rw [hfo2, hblocks]
      have hlen : restK.length ≤ n := by
        have h1 : restK.length ≤ rest.length := by
          rw [hrestK]
          exact filter_length_le _ rest
        have h2 : rest.length ≤ n := by
          simp only [List.length_cons] at h
          omega
        omega
      have hperm2 := ih restK hlen
      refine List.Perm.trans (List.Perm.append_left _ hperm2) ?_
      rw [hhead, List.cons_append]
      apply List.Perm.cons
      rw [hrestK]
      exact List.filter_append_perm _ rest

/-- The specification-side row list has exactly one row per triple. -/
theorem specRows_length (fmt : String → Option String) (ts : List Triple) :
    (specRows fmt ts).length = ts.length := by
  have hperm := blocks_perm ts.length ts (Nat.le_refl _)
  have hlen := hperm.length_eq
  rw [concatAll_length] at hlen
  unfold specRows
  rw [concatAll_length]
  have hmaps :
      (((firstOcc (ts.map Triple.pred)).map
          (fun p => (valsOf ts p).map (mkRow fmt p))).map List.length)
        = (((firstOcc (ts.map Triple.pred)).map
          (fun p => ts.filter (fun t => decide (t.pred = p)))).map List.length) := by
    rw [List.map_map, List.map_map]
    apply map_congr_mem
    intro p _
    show ((valsOf ts p).map (mkRow fmt p)).length
      = (ts.filter (fun t => decide (t.pred = p))).length
    rw [List.length_map]
    unfold valsOf
    rw [List.length_map]
  rw [hmaps]
  exact hlen

/-- C1: for every triple stream, the describe pipeline returns the
synthetic Identifier row followed by exactly one row per triple, with
predicate blocks in first-occurrence order, values in arrival order,
every row of a block built from the same predicate (the
`specRows` characterisation), and the file-like flag true exactly when
some triple is `(rdf:type, FileDataObject)`; a subject with zero
triples yields exactly the Identifier row with the flag false. -/
theorem populate_grid_ok_correct (fmt : String → Option String) (uri : String)
    (ts : List Triple) :
    populate_grid fmt uri (.ok ts)
      = ⟨ts.any isFileTriple, identRow uri :: specRows fmt ts, none⟩ ∧
    (populate_grid fmt uri (.ok ts)).rows.length = ts.length + 1 ∧
    populate_grid fmt uri (.ok []) = ⟨false, [identRow uri], none⟩ := by
  have hmain : populate_grid fmt uri (.ok ts)
      = ⟨ts.any isFileTriple, identRow uri :: specRows fmt ts, none⟩ := by
    show (⟨(ts.foldl foldStep ⟨[], [], false⟩).isFile,
        identRow uri :: buildRows fmt (ts.foldl foldStep ⟨[], [], false⟩),
        none⟩ : DescribeOut) = _
    rw [(describeInv_final ts).2.2, buildRows_eq_specRows]
  refine ⟨hmain, ?_, rfl⟩
  rw [hmain]
  show (identRow uri :: specRows fmt ts).length = ts.length + 1
  rw [List.length_cons, specRows_length]

/-- C2: on a connection failure and on a query failure alike, describe
returns the empty row list (the Identifier row is not returned) with
the file-like flag false, and the two failure kinds surface distinct
error dialogs. -/
theorem populate_grid_failure_distinct (fmt : String → Option String) (uri : String) :
    populate_grid fmt uri .connError
      = ⟨false, [], some "Failed to connect to Tracker"⟩ ∧
    populate_grid fmt uri .queryError
      = ⟨false, [], some "SPARQL query error"⟩ ∧
    (populate_grid fmt uri .connError).errorDialog
      ≠ (populate_grid fmt uri .queryError).errorDialog := by
  refine ⟨rfl, rfl, ?_⟩
  show some "Failed to connect to Tracker" ≠ some "SPARQL query error"
  decide

/- ## Row/Table model export (the CSV writing of the copy button) and
its re-parse

The copy button serialises the header plus one record per `TableRow`
with the `csv` crate's defaults: delimiter `,`, quote `"`, record
terminator `\n`, quoting only where necessary (fields containing the
delimiter, a quote, or a line-break character), quotes doubled inside
quoted fields.  The reader is the standard state machine for that
format (quoted sections verbatim, doubled quotes collapsed, `\r`,
`\n` or `\r\n` ending a record, empty lines ignored). -/

/-- A character forcing a field to be quoted. -/
def csvSpecial (c : Char) : Bool :=
  decide (c = ',' ∨ c = '"' ∨ c = '\n' ∨ c = '\r')

/-- Whether a field must be quoted. -/
def needsQuoting (l : List Char) : Bool := l.any csvSpecial

/-- Double every quote character of a quoted field's content. -/
def escapeQuotes : List Char → List Char
  | [] => []
  | c :: rest =>
    if c = '"' then '"' :: '"' :: escapeQuotes rest
    else c :: escapeQuotes rest

/-- Serialise one field: quoted with doubled inner quotes when needed,
verbatim otherwise. -/
def renderField (f : String) : List Char :=
  if needsQuoting f.toList then '"' :: (escapeQuotes f.toList ++ ['"'])
  else f.toList

/-- Serialise one record: fields joined by commas, terminated by a
newline. -/
def renderRecord : List String → List Char
  | [] => ['\n']
  | f :: rest =>
    renderField f ++ (concatAll (rest.map (fun g => ',' :: renderField g)) ++ ['\n'])

/-- Serialise a whole table. -/
def renderTable (recs : List (List String)) : List Char :=
  concatAll (recs.map renderRecord)

/-- The fixed header record written first by the copy button. -/
def csvHeader : List String :=
  ["Display Predicate", "Native Predicate", "Display Value", "Native Value"]

/-- The four fields written for one row, in source order. -/
def rowFields (r : TableRow) : List String :=
  [r.display_predicate, r.native_predicate, r.display_value, r.native_value]

/-- The copy-button export: header record then one record per row. -/
def toDelimitedText (rows : List TableRow) : String :=
  String.mk (renderTable (csvHeader :: rows.map rowFields))

/-- Parser state: finished records, finished fields of the current
record, the current field, and the in-quotes / just-closed-quote /
just-seen-CR / record-started flags. -/
structure CsvSt where
  recs : List (List String)
  fields : List String
  cur : List Char
  inQ : Bool
  afterQ : Bool
  afterCR : Bool
  started : Bool

/-- One step of the CSV reader state machine. -/
def csvStep (st : CsvSt) (c : Char) : CsvSt :=
  if st.inQ = true then
    if c = '"' then { st with inQ := false, afterQ := true }
    else { st with cur := st.cur ++ [c] }
  else if st.afterQ = true ∧ c = '"' then
    { st with cur := st.cur ++ ['"'], inQ := true, afterQ := false }
  else if c = ',' then
    { st with
      fields := st.fields ++ [String.mk st.cur]
      cur := []
      afterQ := false
      afterCR := false
      started := true }
  else if c = '\n' then
    if st.afterCR = true then { st with afterCR := false }
    else if st.started = true ∨ st.fields ≠ [] ∨ st.cur ≠ [] then
      { st with
        recs := st.recs ++ [st.fields ++ [String.mk st.cur]]
        fields := []
        cur := []
        afterQ := false
        afterCR := false
        started := false }
    else st
  else if c = '\r' then
    if st.started = true ∨ st.fields ≠ [] ∨ st.cur ≠ [] then
      { st with
        recs := st.recs ++ [st.fields ++ [String.mk st.cur]]
        fields := []
        cur := []
        afterQ := false
        afterCR := true
        started := false }
    else { st with afterCR := true }
  else if c = '"' ∧ st.cur = [] then
    { st with inQ := true, afterQ := false, afterCR := false, started := true }
  else
    { st with cur := st.cur ++ [c], afterQ := false, afterCR := false, started := true }

/-- The empty initial parser state. -/
def csvInit : CsvSt := ⟨[], [], [], false, false, false, false⟩

/-- Run the reader over a character list; a final unterminated record
is emitted when present. -/
def parseCSVChars (l : List Char) : List (List String) :=
  if (l.foldl csvStep csvInit).started = true then
    (l.foldl csvStep csvInit).recs
      ++ [(l.foldl csvStep csvInit).fields ++ [String.mk (l.foldl csvStep csvInit).cur]]
  else (l.foldl csvStep csvInit).recs

/-- Parse delimited text into records of fields. -/
def parseCSV (s : String) : List (List String) := parseCSVChars s.toList

/-- Stepping on a quote while inside quotes closes the quoted section. -/
theorem csvStep_inQ_quote (r : List (List String)) (f : List String) (cu : List Char)
    (aq cr s : Bool) :
    csvStep ⟨r, f, cu, true, aq, cr, s⟩ '"' = ⟨r, f, cu, false, true, cr, s⟩ := by
  unfold csvStep
  rw [if_pos rfl, if_pos rfl]

/-- Stepping on a non-quote while inside quotes appends it verbatim. -/
theorem csvStep_inQ_char (r : List (List String)) (f : List String) (cu : List Char)
    (aq cr s : Bool) (c : Char) (hc : ¬ c = '"') :
    csvStep ⟨r, f, cu, true, aq, cr, s⟩ c = ⟨r, f, cu ++ [c], true, aq, cr, s⟩ := by
  unfold csvStep
  rw [if_pos rfl, if_neg hc]

/-- A quote right after a closing quote is a literal doubled quote. -/
theorem csvStep_reopen (r : List (List String)) (f : List String) (cu : List Char)
    (cr s : Bool) :
    csvStep ⟨r, f, cu, false, true, cr, s⟩ '"' = ⟨r, f, cu ++ ['"'], true, false, cr, s⟩ := by
  unfold csvStep
  rw [if_neg (fun h => Bool.noConfusion h), if_pos ⟨rfl, rfl⟩]

/-- A comma outside quotes finishes the current field. -/
theorem csvStep_comma (r : List (List String)) (f : List String) (cu : List Char)
    (aq cr s : Bool) :
    csvStep ⟨r, f, cu, false, aq, cr, s⟩ ','
      = ⟨r, f ++ [String.mk cu], [], false, false, false, true⟩ := by
  unfold csvStep
  rw [if_neg (fun h => Bool.noConfusion h), if_neg (fun h => absurd h.2 (by decide)),
    if_pos rfl]

/-- A newline outside quotes (with no pending CR) finishes the started
record. -/
theorem csvStep_newline (r : List (List String)) (f : List String) (cu : List Char)
    (aq : Bool) :
    csvStep ⟨r, f, cu, false, aq, false, true⟩ '\n'
      = ⟨r ++ [f ++ [String.mk cu]], [], [], false, false, false, false⟩ := by
  unfold csvStep
  rw [if_neg (fun h => Bool.noConfusion h), if_neg (fun h => absurd h.2 (by decide)),
    if_neg (by decide : ¬ ('\n' : Char) = ','), if_pos rfl,
    if_neg (fun h => Bool.noConfusion h), if_pos (Or.inl rfl)]

/-- A quote at the start of a field opens a quoted section. -/
theorem csvStep_openquote (r : List (List String)) (f : List String) (cr s : Bool) :
    csvStep ⟨r, f, [], false, false, cr, s⟩ '"'
      = ⟨r, f, [], true, false, false, true⟩ := by
  unfold csvStep
  rw [if_neg (fun h => Bool.noConfusion h), if_neg (fun h => Bool.noConfusion h.1),
    if_neg (by decide : ¬ ('"' : Char) = ','), if_neg (by decide : ¬ ('"' : Char) = '\n'),
    if_neg (by decide : ¬ ('"' : Char) = '\r'), if_pos ⟨rfl, rfl⟩]

/-- Any other character outside quotes extends the current field. -/
theorem csvStep_plain (r : List (List String)) (f : List String) (cu : List Char)
    (cr s : Bool) (c : Char) (hc : csvSpecial c = false) :
    csvStep ⟨r, f, cu, false, false, cr, s⟩ c
      = ⟨r, f, cu ++ [c], false, false, false, true⟩ := by
  have hcs : ¬ c = ',' ∧ ¬ c = '"' ∧ ¬ c = '\n' ∧ ¬ c = '\r' := by
    simpa [csvSpecial] using hc
  unfold csvStep
  rw [if_neg (fun h => Bool.noConfusion h), if_neg (fun h => hcs.2.1 h.2), if_neg hcs.1,
    if_neg hcs.2.2.1, if_neg hcs.2.2.2, if_neg (fun h => hcs.2.1 h.1)]

/-- Folding a run of unquoted, non-special characters appends them to
the current field and marks the record started when the run is
nonempty. -/
theorem csv_fold_plain (l : List Char) :
    ∀ (r : List (List String)) (f : List String) (cu : List Char) (s : Bool),
      (∀ c ∈ l, csvSpecial c = false) →
      l.foldl csvStep ⟨r, f, cu, false, false, false, s⟩
        = ⟨r, f, cu ++ l, false, false, false, s || !l.isEmpty⟩ := by
  induction l with
  | nil =>
    intro r f cu s _
    rw [List.foldl_nil]
    simp
  | cons c rest ih =>
    intro r f cu s hl
    rw [List.foldl_cons, csvStep_plain r f cu false s c (hl c (List.mem_cons_self c rest))]
    rw [ih r f (cu ++ [c]) true (fun d hd => hl d (List.mem_cons_of_mem c hd))]
    simp [List.append_assoc]

/-- Folding the quote-escaped content of a quoted field appends the
unescaped content to the current field, staying inside quotes. -/
theorem csv_fold_quoted (l : List Char) :
    ∀ (r : List (List String)) (f : List String) (cu : List Char) (cr s : Bool),
      (escapeQuotes l).foldl csvStep ⟨r, f, cu, true, false, cr, s⟩
        = ⟨r, f, cu ++ l, true, false, cr, s⟩ := by
  induction l with
  | nil =>
    intro r f cu cr s
    show (⟨r, f, cu, true, false, cr, s⟩ : CsvSt) = _
    simp
  | cons c rest ih =>
    intro r f cu cr s
    by_cases hc : c = '"'
    · subst hc
      have he : escapeQuotes ('"' :: rest) = '"' :: '"' :: escapeQuotes rest := by
        show (if ('"' : Char) = '"' then '"' :: '"' :: escapeQuotes rest
          else '"' :: escapeQuotes rest) = _
        rw [if_pos rfl]
      rw [he, List.foldl_cons, csvStep_inQ_quote r f cu false cr s]
      rw [List.foldl_cons, csvStep_reopen r f cu cr s]
      rw [ih r f (cu ++ ['"']) cr s]
      simp [List.append_assoc]
    · have he : escapeQuotes (c :: rest) = c :: escapeQuotes rest := by
        show (if c = '"' then '"' :: '"' :: escapeQuotes rest
          else c :: escapeQuotes rest) = _
        rw [if_neg hc]
      rw [he, List.foldl_cons, csvStep_inQ_char r f cu false cr s c hc]
      rw [ih r f (cu ++ [c]) cr s]
      simp [List.append_assoc]

/-- Folding one serialised field from a field boundary loads its
content into the current field; the just-closed-quote flag ends up set
exactly when the field was quoted. -/
theorem csv_fold_field (g : String) (r : List (List String)) (f : List String) (s : Bool) :
    (renderField g).foldl csvStep ⟨r, f, [], false, false, false, s⟩
      = ⟨r, f, g.toList, false, needsQuoting g.toList, false, s || !g.toList.isEmpty⟩ := by
  unfold renderField
  by_cases hq : needsQuoting g.toList = true
  · rw [if_pos hq]
    rw [List.foldl_cons, csvStep_openquote r f false s, List.foldl_append]
    rw [csv_fold_quoted g.toList r f [] false true]
    rw [List.foldl_cons, List.foldl_nil, csvStep_inQ_quote r f ([] ++ g.toList) false false true]
    have hne : g.toList.isEmpty = false := by
      cases hl : g.toList with
      | nil =>
        rw [hl] at hq
        exact absurd hq (by decide)
      | cons x xs => rfl
    simp [hq, hne]
    exact ⟨hq, Or.inr (fun hD => by
      have hne2 : g.data.isEmpty = false := hne
      rw [hD] at hne2
      exact absurd hne2 (by decide))⟩
  · rw [if_neg hq]
    have hall : ∀ c ∈ g.toList, csvSpecial c = false := by
      intro c hcm
      cases hb : csvSpecial c with
      | false => rfl
      | true =>
        exfalso
        apply hq
        exact List.any_eq_true.mpr ⟨c, hcm, hb⟩
    rw [csv_fold_plain g.toList r f [] s hall]
    have hq' : needsQuoting g.toList = false := by
      revert hq
      cases needsQuoting g.toList
      · intro _
        rfl
      · intro hq
        exact absurd rfl hq
    simp [hq']
    exact hq'

/-- Folding the comma-prefixed remaining fields and the final newline
finishes the record: the current field, then the remaining fields, are
appended as one record and the state returns to a clean boundary. -/
theorem csv_fold_tail (gs : List String) :
    ∀ (r : List (List String)) (f : List String) (cu : List Char) (aq s : Bool),
      (s = true ∨ gs ≠ []) →
      (concatAll (gs.map (fun g => ',' :: renderField g)) ++ ['\n']).foldl csvStep
          ⟨r, f, cu, false, aq, false, s⟩
        = ⟨r ++ [f ++ [String.mk cu] ++ gs], [], [], false, false, false, false⟩ := by
  induction gs with
  | nil =>
    intro r f cu aq s hs
    have hs' : s = true := hs.resolve_right (fun h => h rfl)
    subst hs'
    show (([] : List Char) ++ ['\n']).foldl csvStep _ = _
    rw [List.nil_append, List.foldl_cons, List.foldl_nil, csvStep_newline r f cu aq]
    simp
  | cons g gs' ih =>
    intro r f cu aq s _hs
    show (((',' :: renderField g)
        ++ concatAll (gs'.map (fun g => ',' :: renderField g))) ++ ['\n']).foldl csvStep _ = _
    rw [show ((',' :: renderField g)
          ++ concatAll (gs'.map (fun g => ',' :: renderField g))) ++ ['\n']
        = ',' :: (renderField g
          ++ (concatAll (gs'.map (fun g => ',' :: renderField g)) ++ ['\n'])) from by
      simp [List.append_assoc]]
    rw [List.foldl_cons, csvStep_comma r f cu aq false s, List.foldl_append]
    rw [csv_fold_field g r (f ++ [String.mk cu]) true]
    rw [ih r (f ++ [String.mk cu]) g.toList (needsQuoting g.toList)
      (true || !g.toList.isEmpty) (Or.inl (Bool.true_or _))]
    simp [string_mk_toList, List.append_assoc]

/-- Folding one whole serialised record from a clean record boundary
appends exactly that record and returns to a clean boundary. -/
theorem csv_fold_record (a : String) (gs : List String) (hne : a ≠ "" ∨ gs ≠ [])
    (r : List (List String)) :
    (renderRecord (a :: gs)).foldl csvStep ⟨r, [], [], false, false, false, false⟩
      = ⟨r ++ [a :: gs], [], [], false, false, false, false⟩ := by
  show ((renderField a
      ++ (concatAll (gs.map (fun g => ',' :: renderField g)) ++ ['\n'])).foldl csvStep _) = _
  rw [List.foldl_append, csv_fold_field a r [] false]
  have hstart : (false || !a.toList.isEmpty) = true ∨ gs ≠ [] := by
    rcases hne with h | h
    · left
      have hemp : a.toList.isEmpty = false := by
        cases hl : a.toList with
        | nil =>
          exfalso
          apply h
          have h2l := congrArg String.mk hl
          rwa [string_mk_toList] at h2l
        | cons x xs => rfl
      rw [hemp]
      decide
    · right
      exact h
  rw [csv_fold_tail gs r [] a.toList (needsQuoting a.toList) (false || !a.toList.isEmpty) hstart]
  simp [string_mk_toList]

/-- Folding a whole serialised table from a clean state appends all its
records. -/
theorem csv_fold_table (recs : List (List String)) :
    ∀ r : List (List String),
      (∀ q ∈ recs, ∃ a gs, q = a :: gs ∧ (a ≠ "" ∨ gs ≠ [])) →
      (renderTable recs).foldl csvStep ⟨r, [], [], false, false, false, false⟩
        = ⟨r ++ recs, [], [], false, false, false, false⟩ := by
  induction recs with
  | nil =>
    intro r _
    show (([] : List Char)).foldl csvStep _ = _
    rw [List.foldl_nil]
    simp
  | cons q rest ih =>
    intro r hok
    obtain ⟨a, gs, hq, hne⟩ := hok q (List.mem_cons_self q rest)
    subst hq
    show ((renderRecord (a :: gs) ++ renderTable rest).foldl csvStep _) = _
    rw [List.foldl_append, csv_fold_record a gs hne r]
    rw [ih (r ++ [a :: gs]) (fun w hw => hok w (List.mem_cons_of_mem _ hw))]
    simp [List.append_assoc]

/-- C3: exporting any row list to delimited text writes the fixed
header record and one record per row (quoting exactly the fields that
contain the delimiter, a quote, or a line break), and re-parsing the
produced text yields exactly the original four fields of every row;
the empty table serialises to just the header line. -/
theorem toDelimitedText_round_trip (rows : List TableRow) :
    parseCSV (toDelimitedText rows) = csvHeader :: rows.map rowFields ∧
    toDelimitedText []
      = "Display Predicate,Native Predicate,Display Value,Native Value\n" := by
  constructor
  · have hok : ∀ q ∈ csvHeader :: rows.map rowFields,
        ∃ a gs, q = a :: gs ∧ (a ≠ "" ∨ gs ≠ []) := by
      intro q hq
      rcases List.mem_cons.mp hq with h | h
      · refine ⟨"Display Predicate",
          ["Native Predicate", "Display Value", "Native Value"], ?_, Or.inl (by decide)⟩
        rw [h]
        rfl
      · obtain ⟨row, _, hrow⟩ := List.mem_map.mp h
        refine ⟨row.display_predicate,
          [row.native_predicate, row.display_value, row.native_value], ?_,
          Or.inr (by simp)⟩
        rw [← hrow]
        rfl
    show parseCSVChars (toDelimitedText rows).toList = _
    rw [show (toDelimitedText rows).toList
        = renderTable (csvHeader :: rows.map rowFields) from rfl]
    unfold parseCSVChars csvInit
    rw [csv_fold_table (csvHeader :: rows.map rowFields) [] hok]
    simp
  · decide
